import Mathlib

/-!
Verification development for `ilovetj.py`, a pipeline that renders source
pdfs to page bitmaps, annotates them and collects them into one output pdf.

The Python source is shallowly embedded:

* strings are modelled as Lean `String` / `List Char` (the source only
  manipulates ASCII artifact names; the Python character classes `\w`,
  `[0-9]` and `str.isdigit` are modelled by their behaviour on ASCII
  characters, on which they agree with the Lean `Char` classifiers);
* Python's heterogeneous key lists (`int` and `str` entries mixed) become
  `List Tok`;
* Python list/str comparison, which raises `TypeError` on an `int` vs
  `str` comparison, becomes an `Option Ordering` valued comparator
  (`none` = `TypeError`);
* fallible code returns `Option` / `Except`;
* the thread scheduler `run_parallel` becomes an explicit small-step
  state machine over interleaved atomic events (one event per executed
  Python statement).
-/

namespace Ilovetj

/-! ### Character classes

`sectioned_mixed_key` splits with `re.split('-|_|\W', x)` and
`re.split('([0-9]+)', s)`.  Over ASCII, Python's `\w` is
`[a-zA-Z0-9_]`, `\W` its complement, and `[0-9]`/`str.isdigit` match the
decimal digits, which is exactly `Char.isDigit`. -/

/-- Python word character `\w` (ASCII range): letter, digit or underscore. -/
def isWordChar (c : Char) : Bool := c.isAlphanum || c = '_'

/-- A character at which `re.split('-|_|\W', x)` splits: `-`, `_`, or any
non-word character. -/
def isSepChar (c : Char) : Bool := c = '-' || c = '_' || !(isWordChar c)

/-! ### `re.split` on a single-character class

`re.split('-|_|\W', x)` cuts `x` at every separator character, keeping
empty pieces (leading, trailing, and between adjacent separators); the
empty string yields `['']`.  `chSplitA` returns the first piece and the
remaining pieces. -/

def chSplitA (p : Char → Bool) : List Char → List Char × List (List Char)
  | [] => ([], [])
  | c :: rest =>
    let r := chSplitA p rest
    if p c then ([], r.1 :: r.2) else (c :: r.1, r.2)

/-- All pieces of `re.split` on the single-character class `p`. -/
def chSplit (p : Char → Bool) (l : List Char) : List (List Char) :=
  (chSplitA p l).1 :: (chSplitA p l).2

/-! ### Maximal digit / non-digit runs

`re.split('([0-9]+)', s)`, with the empty pieces dropped by the
`len(k) == 0` test in the source, yields exactly the maximal runs of
consecutive digits and consecutive non-digits of `s`, in order. -/

def runsA (c : Char) : List Char → List Char × List (List Char)
  | [] => ([c], [])
  | d :: rest =>
    let r := runsA d rest
    if c.isDigit == d.isDigit then (c :: r.1, r.2) else ([c], r.1 :: r.2)

/-- Maximal runs of consecutive characters of equal digit-ness. -/
def runs : List Char → List (List Char)
  | [] => []
  | c :: rest => (runsA c rest).1 :: (runsA c rest).2

/-- Value of `int(k)` for a decimal digit run `k`. -/
def parseNat (ds : List Char) : Nat := ds.foldl (fun acc c => 10 * acc + (c.toNat - 48)) 0

/-- `k.isdigit()` for a (nonempty) run: every character is a decimal digit. -/
def allDigits (l : List Char) : Bool := l.all (fun c => c.isDigit)

/-! ### Natural key tokens

A key produced by `sectioned_mixed_key` is a Python list whose entries
are `int`s (digit runs, the `-1` sentinel) and `str`s (non-digit runs,
the `""` guard between adjacent integer tokens). -/

inductive Tok where
  | int (n : Int)
  | str (s : List Char)
deriving DecidableEq, Repr

/-- `len(keys) > 0 and isinstance(keys[-1], int)`. -/
def lastIsInt (keys : List Tok) : Bool :=
  match keys.getLast? with
  | some (Tok.int _) => true
  | _ => false

/-- Body of the inner `for k in re.split('([0-9]+)', s)` loop of
`sectioned_mixed_key`: append one (nonempty) run to the key, inserting
the `""` guard between two adjacent integer tokens. -/
def pushRun (keys : List Tok) (k : List Char) : List Tok :=
  if allDigits k then
    (if lastIsInt keys then keys ++ [Tok.str []] else keys) ++ [Tok.int (parseNat k)]
  else keys ++ [Tok.str k]

/-- One iteration of the outer `for s in sections` loop: process the runs
of the section, then append the `-1` sentinel if the key is nonempty and
does not end in an integer token. -/
def pushSection (keys : List Tok) (s : List Char) : List Tok :=
  let keys2 := (runs s).foldl pushRun keys
  if !keys2.isEmpty && !lastIsInt keys2 then keys2 ++ [Tok.int (-1)] else keys2

/-- `sectioned_mixed_key` over the characters of the stem. -/
def sectioned_mixed_key_chars (x : List Char) : List Tok :=
  (chSplit isSepChar x).foldl pushSection []

/-- `sectioned_mixed_key(x)`: split the stem on `-`, `_` and non-word
characters, split each section into digit / non-digit runs, map digit
runs to integer tokens (guarded by `""` when two integers would become
adjacent) and non-digit runs to string tokens, and close any section
whose last token is not an integer with the `-1` sentinel. -/
def sectioned_mixed_key (x : String) : List Tok :=
  sectioned_mixed_key_chars x.data

/-! ### `os.path` helpers (POSIX semantics)

`os.path.basename(p)` is the part of `p` after the last `/`.
`os.path.splitext(b)` splits at the last dot, provided that dot sits
after the last `/` and the basename up to it is not entirely dots. -/

/-- `os.path.basename`. -/
def basenameChars (p : List Char) : List Char :=
  (p.reverse.takeWhile (fun c => c ≠ '/')).reverse

/-- `os.path.splitext` on a path with no directory part: returns
`(root, ext)` with `root ++ ext = b`. -/
def splitextChars (b : List Char) : List Char × List Char :=
  match b.reverse.dropWhile (fun c => c ≠ '.') with
  | [] => (b, [])
  | _ :: rest =>
    if rest.any (fun c => c ≠ '.') then
      (rest.reverse, ((b.reverse.takeWhile (fun c => c ≠ '.')) ++ ['.']).reverse)
    else (b, [])

/-- `stem_name(path)`: `os.path.splitext(os.path.basename(path))[0]`. -/
def stem_name (path : String) : String :=
  String.mk (splitextChars (basenameChars path.data)).1

/-- The sort key used by `sorted_mixed_basename`:
`sectioned_mixed_key(stem_name(path))`. -/
def keyOf (path : String) : List Tok := sectioned_mixed_key (stem_name path)

/-! ### Python comparison of keys

Python's `sorted` compares two key lists with `<`, which finds the first
entry pair that is not `==` and compares it with `<` (ties on a common
prefix make the shorter list smaller).  `int < str` raises `TypeError`;
the comparator is therefore `Option`-valued, `none` standing for the
raised exception. -/

/-- Python `<` / `==` on two `int` entries, as an `Ordering`. -/
def cmpInt (m n : Int) : Ordering :=
  if m < n then Ordering.lt else if n < m then Ordering.gt else Ordering.eq

/-- Python `<` / `==` on two `str` entries: lexicographic comparison of
the code points. -/
def cmpChars : List Char → List Char → Ordering
  | [], [] => Ordering.eq
  | [], _ :: _ => Ordering.lt
  | _ :: _, [] => Ordering.gt
  | a :: as, b :: bs =>
    if a < b then Ordering.lt else if b < a then Ordering.gt else cmpChars as bs

/-- Python comparison of two key entries.  `int` vs `str` raises
`TypeError` (`none`). -/
def cmpTok : Tok → Tok → Option Ordering
  | Tok.int m, Tok.int n => some (cmpInt m n)
  | Tok.str a, Tok.str b => some (cmpChars a b)
  | _, _ => none

/-- Python comparison of two key lists (`list.__lt__` / `__eq__`):
entry-wise, first difference decides, common prefix makes the shorter
list smaller; an `int` vs `str` entry at the first difference raises
`TypeError` (`none`). -/
def cmpKey : List Tok → List Tok → Option Ordering
  | [], [] => some Ordering.eq
  | [], _ :: _ => some Ordering.lt
  | _ :: _, [] => some Ordering.gt
  | a :: as, b :: bs =>
    match cmpTok a b with
    | none => none
    | some Ordering.eq => cmpKey as bs
    | some o => some o

/-- Both orders of comparison succeed (no `TypeError`). -/
def comparableKeys (a b : List Tok) : Bool := (cmpKey a b).isSome

/-- Every pair of keys in the list is comparable: exactly when Python is
guaranteed not to raise while sorting by these keys. -/
def allComparable : List (List Tok) → Bool
  | [] => true
  | k :: ks => ks.all (fun k2 => comparableKeys k k2) && allComparable ks

/-! ### A total tie-break extension of the comparator

To state what "sorted" means (and to run the model's sort as a function)
we extend the partial comparator by one fixed rule, `int` entries before
`str` entries.  On every pair of keys that Python can compare (the only
pairs the theorems below ever sort) the extension agrees with the
Python comparator, see `cmpKeyT_agrees`. -/

/-- Total extension of `cmpTok`: an integer entry sorts before a string
entry. -/
def cmpTokT : Tok → Tok → Ordering
  | Tok.int m, Tok.int n => cmpInt m n
  | Tok.str a, Tok.str b => cmpChars a b
  | Tok.int _, Tok.str _ => Ordering.lt
  | Tok.str _, Tok.int _ => Ordering.gt

/-- Total extension of `cmpKey`. -/
def cmpKeyT : List Tok → List Tok → Ordering
  | [], [] => Ordering.eq
  | [], _ :: _ => Ordering.lt
  | _ :: _, [] => Ordering.gt
  | a :: as, b :: bs =>
    match cmpTokT a b with
    | Ordering.eq => cmpKeyT as bs
    | o => o

/-- `a ≤ b` on keys, via the total extension. -/
def leKeyT (a b : List Tok) : Bool :=
  match cmpKeyT a b with
  | Ordering.gt => false
  | _ => true

/-! ### The sort

CPython's `sorted` is a stable ascending sort by the key function; any
stable ascending sort computes the same list, so the model uses a stable
insertion sort.  A list whose keys are not pairwise comparable makes
`sorted` raise `TypeError` (modelled as `none`; on two-element lists
this is exactly CPython's behaviour, and all theorems below only sort
lists with pairwise comparable keys, on which CPython never raises). -/

def insertSorted (le : α → α → Bool) (x : α) : List α → List α
  | [] => [x]
  | y :: ys => if le x y then x :: y :: ys else y :: insertSorted le x ys

/-- Stable insertion sort (an earlier element is kept before a tied
later element). -/
def isort (le : α → α → Bool) : List α → List α
  | [] => []
  | x :: xs => insertSorted le x (isort le xs)

/-- `sorted_mixed_basename(l)`:
`sorted(l, key=lambda p: sectioned_mixed_key(stem_name(p)))`. -/
def sorted_mixed_basename (l : List String) : Option (List String) :=
  if allComparable (l.map keyOf) then
    some (isort (fun a b => leKeyT (keyOf a) (keyOf b)) l)
  else none

/-! ### Basic facts about the comparators -/

theorem cmpChars_cons (a b : Char) (as bs : List Char) :
    cmpChars (a :: as) (b :: bs) =
      if a < b then Ordering.lt else if b < a then Ordering.gt else cmpChars as bs := rfl

theorem cmpKey_cons (a b : Tok) (as bs : List Tok) :
    cmpKey (a :: as) (b :: bs) =
      match cmpTok a b with
      | none => none
      | some Ordering.eq => cmpKey as bs
      | some o => some o := rfl

theorem cmpKeyT_cons (a b : Tok) (as bs : List Tok) :
    cmpKeyT (a :: as) (b :: bs) =
      match cmpTokT a b with
      | Ordering.eq => cmpKeyT as bs
      | o => o := rfl

theorem cmpInt_self (m : Int) : cmpInt m m = Ordering.eq := by
  simp [cmpInt]

theorem cmpChars_self : ∀ s, cmpChars s s = Ordering.eq
  | [] => rfl
  | c :: cs => by
    rw [cmpChars_cons]
    simp only [if_neg (lt_irrefl c)]
    exact cmpChars_self cs

theorem cmpTok_refl (t : Tok) : cmpTok t t = some Ordering.eq := by
  cases t with
  | int m => simp [cmpTok, cmpInt_self]
  | str s => simp [cmpTok, cmpChars_self]

theorem cmpInt_swap (m n : Int) : cmpInt n m = (cmpInt m n).swap := by
  unfold cmpInt
  rcases lt_trichotomy m n with h | h | h
  · simp only [if_pos h, if_neg (show ¬ n < m by omega)]
    rfl
  · subst h
    simp only [if_neg (lt_irrefl m)]
    rfl
  · simp only [if_pos h, if_neg (show ¬ m < n by omega)]
    rfl

theorem cmpChars_swap : ∀ a b, cmpChars b a = (cmpChars a b).swap
  | [], [] => rfl
  | [], _ :: _ => rfl
  | _ :: _, [] => rfl
  | a :: as, b :: bs => by
    rw [cmpChars_cons, cmpChars_cons]
    rcases lt_trichotomy a b with h | h | h
    · simp only [if_pos h, if_neg (asymm h)]
      rfl
    · subst h
      simp only [if_neg (lt_irrefl a)]
      exact cmpChars_swap as bs
    · simp only [if_pos h, if_neg (asymm h)]
      rfl

theorem cmpTok_swap : ∀ a b, cmpTok b a = (cmpTok a b).map Ordering.swap
  | Tok.int m, Tok.int n => by
    show some (cmpInt n m) = (some (cmpInt m n)).map Ordering.swap
    rw [cmpInt_swap]
    rfl
  | Tok.str a, Tok.str b => by
    show some (cmpChars b a) = (some (cmpChars a b)).map Ordering.swap
    rw [cmpChars_swap]
    rfl
  | Tok.int _, Tok.str _ => rfl
  | Tok.str _, Tok.int _ => rfl

theorem cmpKey_swap : ∀ a b, cmpKey b a = (cmpKey a b).map Ordering.swap
  | [], [] => rfl
  | [], _ :: _ => rfl
  | _ :: _, [] => rfl
  | a :: as, b :: bs => by
    rw [cmpKey_cons, cmpKey_cons, cmpTok_swap a b]
    cases h : cmpTok a b with
    | none => rfl
    | some o =>
      cases o with
      | lt => rfl
      | gt => rfl
      | eq => exact cmpKey_swap as bs

theorem comparableKeys_symm {a b : List Tok} (h : comparableKeys a b = true) :
    comparableKeys b a = true := by
  unfold comparableKeys at *
  rw [cmpKey_swap]
  simpa using h

theorem cmpKey_append : ∀ (p a b : List Tok), cmpKey (p ++ a) (p ++ b) = cmpKey a b
  | [], _, _ => rfl
  | t :: p, a, b => by
    rw [List.cons_append, List.cons_append, cmpKey_cons, cmpTok_refl]
    exact cmpKey_append p a b

theorem cmpInt_lt_iff {m n : Int} : cmpInt m n = Ordering.lt ↔ m < n := by
  unfold cmpInt
  by_cases h1 : m < n
  · simp [h1]
  · by_cases h2 : n < m
    · simp [h1, h2]
    · simp [h1, h2]

theorem cmpInt_eq_iff {m n : Int} : cmpInt m n = Ordering.eq ↔ m = n := by
  unfold cmpInt
  by_cases h1 : m < n
  · have h3 : m ≠ n := by omega
    simp [h1, h3]
  · by_cases h2 : n < m
    · have h3 : m ≠ n := by omega
      simp [h1, h2, h3]
    · have h3 : m = n := by omega
      simp [h1, h2, h3]

theorem cmpInt_gt_iff {m n : Int} : cmpInt m n = Ordering.gt ↔ n < m := by
  unfold cmpInt
  by_cases h1 : m < n
  · have h3 : ¬ n < m := by omega
    simp [h1, h3]
  · by_cases h2 : n < m
    · simp [h1, h2]
    · simp [h1, h2]

theorem cmpChars_eq_iff : ∀ {a b : List Char}, cmpChars a b = Ordering.eq ↔ a = b
  | [], [] => by simp [cmpChars]
  | [], c :: cs => by simp [cmpChars]
  | c :: cs, [] => by simp [cmpChars]
  | a :: as, b :: bs => by
    rw [cmpChars_cons]
    rcases lt_trichotomy a b with h | h | h
    · simp only [if_pos h]
      simp [ne_of_lt h]
    · subst h
      simp only [if_neg (lt_irrefl a)]
      simp [cmpChars_eq_iff]
    · simp only [if_pos h, if_neg (asymm h)]
      simp [(ne_of_lt h).symm]

theorem cmpTokT_eq_iff : ∀ {a b : Tok}, cmpTokT a b = Ordering.eq ↔ a = b
  | Tok.int _, Tok.int _ => by simp [cmpTokT, cmpInt_eq_iff]
  | Tok.str _, Tok.str _ => by simp [cmpTokT, cmpChars_eq_iff]
  | Tok.int _, Tok.str _ => by simp [cmpTokT]
  | Tok.str _, Tok.int _ => by simp [cmpTokT]

theorem cmpTokT_swap : ∀ a b, cmpTokT b a = (cmpTokT a b).swap
  | Tok.int _, Tok.int _ => cmpInt_swap _ _
  | Tok.str _, Tok.str _ => cmpChars_swap _ _
  | Tok.int _, Tok.str _ => rfl
  | Tok.str _, Tok.int _ => rfl

theorem cmpKeyT_swap : ∀ a b, cmpKeyT b a = (cmpKeyT a b).swap
  | [], [] => rfl
  | [], _ :: _ => rfl
  | _ :: _, [] => rfl
  | a :: as, b :: bs => by
    rw [cmpKeyT_cons, cmpKeyT_cons, cmpTokT_swap a b]
    cases h : cmpTokT a b with
    | lt => rfl
    | gt => rfl
    | eq => exact cmpKeyT_swap as bs

theorem cmpKeyT_eq_iff : ∀ {a b : List Tok}, cmpKeyT a b = Ordering.eq ↔ a = b
  | [], [] => by decide
  | [], t :: ts => by simp [cmpKeyT]
  | t :: ts, [] => by simp [cmpKeyT]
  | a :: as, b :: bs => by
    rw [cmpKeyT_cons]
    cases h : cmpTokT a b with
    | lt =>
      have hne : a ≠ b := fun he => by
        rw [he, cmpTokT_eq_iff.mpr rfl] at h
        exact absurd h (by simp)
      simp [hne]
    | gt =>
      have hne : a ≠ b := fun he => by
        rw [he, cmpTokT_eq_iff.mpr rfl] at h
        exact absurd h (by simp)
      simp [hne]
    | eq =>
      have := cmpTokT_eq_iff.mp h
      subst this
      simp [cmpKeyT_eq_iff]

/-! ### Transitivity and totality of the tie-break extension -/

theorem cmpChars_lt_trans : ∀ {a b c : List Char},
    cmpChars a b = Ordering.lt → cmpChars b c = Ordering.lt → cmpChars a c = Ordering.lt
  | [], [], _, h1, _ => by simp [cmpChars] at h1
  | [], _ :: _, [], _, h2 => by simp [cmpChars] at h2
  | [], _ :: _, _ :: _, _, _ => rfl
  | _ :: _, [], _, h1, _ => by simp [cmpChars] at h1
  | _ :: _, _ :: _, [], _, h2 => by simp [cmpChars] at h2
  | a :: as, b :: bs, c :: cs, h1, h2 => by
    rw [cmpChars_cons] at h1 h2
    rw [cmpChars_cons]
    rcases lt_trichotomy a b with hab | hab | hab
    · rcases lt_trichotomy b c with hbc | hbc | hbc
      · simp only [if_pos (lt_trans hab hbc)]
      · subst hbc
        simp only [if_pos hab]
      · simp only [if_pos hbc, if_neg (asymm hbc)] at h2
        exact absurd h2 (by simp)
    · subst hab
      rcases lt_trichotomy a c with hac | hac | hac
      · simp only [if_pos hac]
      · subst hac
        simp only [if_neg (lt_irrefl a)] at h1 h2 ⊢
        exact cmpChars_lt_trans h1 h2
      · simp only [if_neg (lt_irrefl a)] at h1
        simp only [if_neg (asymm hac), if_pos hac] at h2
        exact absurd h2 (by simp)
    · simp only [if_neg (asymm hab), if_pos hab] at h1
      exact absurd h1 (by simp)

theorem cmpTokT_lt_trans : ∀ {a b c : Tok},
    cmpTokT a b = Ordering.lt → cmpTokT b c = Ordering.lt → cmpTokT a c = Ordering.lt
  | Tok.int _, Tok.int _, Tok.int _, h1, h2 => by
    rw [show cmpTokT (Tok.int _) (Tok.int _) = cmpInt _ _ from rfl] at h1 h2 ⊢
    rw [cmpInt_lt_iff] at h1 h2 ⊢
    omega
  | Tok.int _, Tok.int _, Tok.str _, _, _ => rfl
  | Tok.int _, Tok.str _, Tok.str _, _, _ => rfl
  | Tok.int _, Tok.str _, Tok.int _, _, h2 => by
    exact absurd h2 (by simp [cmpTokT])
  | Tok.str _, Tok.int _, _, h1, _ => by
    exact absurd h1 (by simp [cmpTokT])
  | Tok.str _, Tok.str _, Tok.int _, _, h2 => by
    exact absurd h2 (by simp [cmpTokT])
  | Tok.str _, Tok.str _, Tok.str _, h1, h2 => cmpChars_lt_trans h1 h2

theorem cmpKeyT_lt_trans : ∀ {a b c : List Tok},
    cmpKeyT a b = Ordering.lt → cmpKeyT b c = Ordering.lt → cmpKeyT a c = Ordering.lt
  | [], [], _, h1, _ => by simp [cmpKeyT] at h1
  | [], _ :: _, [], _, h2 => by simp [cmpKeyT] at h2
  | [], _ :: _, _ :: _, _, _ => rfl
  | _ :: _, [], _, h1, _ => by simp [cmpKeyT] at h1
  | _ :: _, _ :: _, [], _, h2 => by simp [cmpKeyT] at h2
  | a :: as, b :: bs, c :: cs, h1, h2 => by
    rw [cmpKeyT_cons] at h1 h2
    rw [cmpKeyT_cons]
    cases hab : cmpTokT a b with
    | gt =>
      rw [hab] at h1
      exact absurd h1 (by simp)
    | lt =>
      rw [hab] at h1
      cases hbc : cmpTokT b c with
      | gt =>
        rw [hbc] at h2
        exact absurd h2 (by simp)
      | lt =>
        rw [cmpTokT_lt_trans hab hbc]
      | eq =>
        have := cmpTokT_eq_iff.mp hbc
        subst this
        rw [hab]
    | eq =>
      have := cmpTokT_eq_iff.mp hab
      subst this
      rw [hab] at h1
      cases hbc : cmpTokT a c with
      | gt =>
        rw [hbc] at h2
        exact absurd h2 (by simp)
      | lt => rfl
      | eq =>
        rw [hbc] at h2
        exact cmpKeyT_lt_trans h1 h2

theorem leKeyT_iff {a b : List Tok} : leKeyT a b = true ↔ cmpKeyT a b ≠ Ordering.gt := by
  unfold leKeyT
  cases h : cmpKeyT a b <;> simp

theorem leKeyT_total (a b : List Tok) : leKeyT a b = true ∨ leKeyT b a = true := by
  rw [leKeyT_iff, leKeyT_iff, cmpKeyT_swap a b]
  cases h : cmpKeyT a b <;> simp [Ordering.swap]

theorem leKeyT_trans {a b c : List Tok}
    (h1 : leKeyT a b = true) (h2 : leKeyT b c = true) : leKeyT a c = true := by
  rw [leKeyT_iff] at h1 h2 ⊢
  cases hab : cmpKeyT a b with
  | gt => exact absurd hab h1
  | eq =>
    have := cmpKeyT_eq_iff.mp hab
    subst this
    exact h2
  | lt =>
    cases hbc : cmpKeyT b c with
    | gt => exact absurd hbc h2
    | eq =>
      have := cmpKeyT_eq_iff.mp hbc
      subst this
      simp [hab]
    | lt =>
      simp [cmpKeyT_lt_trans hab hbc]

/-! ### The total extension agrees with the Python comparator on
comparable pairs -/

theorem cmpTok_agrees : ∀ {a b : Tok} {o : Ordering}, cmpTok a b = some o → cmpTokT a b = o
  | Tok.int _, Tok.int _, _, h => Option.some.inj h
  | Tok.str _, Tok.str _, _, h => Option.some.inj h
  | Tok.int _, Tok.str _, _, h => by simp [cmpTok] at h
  | Tok.str _, Tok.int _, _, h => by simp [cmpTok] at h

theorem cmpKey_agrees : ∀ {a b : List Tok} {o : Ordering}, cmpKey a b = some o → cmpKeyT a b = o
  | [], [], _, h => by simpa [cmpKey, cmpKeyT] using h
  | [], _ :: _, _, h => by simpa [cmpKey, cmpKeyT] using h
  | _ :: _, [], _, h => by simpa [cmpKey, cmpKeyT] using h
  | a :: as, b :: bs, o, h => by
    rw [cmpKey_cons] at h
    rw [cmpKeyT_cons]
    cases ht : cmpTok a b with
    | none =>
      rw [ht] at h
      exact absurd h (by simp)
    | some o2 =>
      rw [ht] at h
      rw [cmpTok_agrees ht]
      cases o2 with
      | lt =>
        cases h
        rfl
      | gt =>
        cases h
        rfl
      | eq => exact cmpKey_agrees h

/-- On a comparable pair, `leKeyT a b` says exactly that Python found
`a < b` or `a == b`. -/
theorem leKeyT_agrees {a b : List Tok} (hc : comparableKeys a b = true) :
    leKeyT a b = true ↔
      (cmpKey a b = some Ordering.lt ∨ cmpKey a b = some Ordering.eq) := by
  unfold comparableKeys at hc
  cases h : cmpKey a b with
  | none => simp [h] at hc
  | some o =>
    rw [leKeyT_iff, cmpKey_agrees h]
    cases o <;> simp

/-! ### The stable insertion sort -/

theorem insertSorted_perm (le : α → α → Bool) (x : α) :
    ∀ l : List α, (insertSorted le x l).Perm (x :: l)
  | [] => List.Perm.refl _
  | y :: ys => by
    unfold insertSorted
    by_cases h : le x y = true
    · rw [if_pos h]
    · rw [if_neg h]
      exact ((insertSorted_perm le x ys).cons y).trans (List.Perm.swap x y ys)

theorem isort_perm (le : α → α → Bool) : ∀ l : List α, (isort le l).Perm l
  | [] => List.Perm.refl _
  | x :: xs => by
    unfold isort
    exact (insertSorted_perm le x (isort le xs)).trans ((isort_perm le xs).cons x)

theorem isort_length (le : α → α → Bool) (l : List α) : (isort le l).length = l.length :=
  (isort_perm le l).length_eq

theorem pairwise_insertSorted (le : α → α → Bool)
    (htrans : ∀ a b c, le a b = true → le b c = true → le a c = true)
    (htotal : ∀ a b, le a b = true ∨ le b a = true) (x : α) :
    ∀ {l : List α}, l.Pairwise (fun a b => le a b = true) →
      (insertSorted le x l).Pairwise (fun a b => le a b = true)
  | [], _ => List.Pairwise.cons (by simp) List.Pairwise.nil
  | y :: ys, h => by
    unfold insertSorted
    by_cases hxy : le x y = true
    · rw [if_pos hxy]
      refine List.Pairwise.cons ?_ h
      intro z hz
      rcases List.mem_cons.mp hz with hz | hz
      · subst hz
        exact hxy
      · exact htrans x y z hxy (List.rel_of_pairwise_cons h hz)
    · rw [if_neg hxy]
      have hyx : le y x = true := (htotal x y).resolve_left hxy
      refine List.Pairwise.cons ?_ (pairwise_insertSorted le htrans htotal x h.tail)
      intro z hz
      rcases List.mem_cons.mp ((insertSorted_perm le x ys).mem_iff.mp hz) with hz2 | hz2
      · subst hz2
        exact hyx
      · exact List.rel_of_pairwise_cons h hz2

theorem pairwise_isort (le : α → α → Bool)
    (htrans : ∀ a b c, le a b = true → le b c = true → le a c = true)
    (htotal : ∀ a b, le a b = true ∨ le b a = true) :
    ∀ l : List α, (isort le l).Pairwise (fun a b => le a b = true)
  | [] => List.Pairwise.nil
  | x :: xs => by
    unfold isort
    exact pairwise_insertSorted le htrans htotal x (pairwise_isort le htrans htotal xs)

/-! ### Pairwise comparability -/

theorem allComparable_iff : ∀ {ks : List (List Tok)},
    allComparable ks = true ↔ ks.Pairwise (fun k1 k2 => comparableKeys k1 k2 = true)
  | [] => by simp [allComparable]
  | k :: ks => by
    rw [List.pairwise_cons]
    unfold allComparable
    rw [Bool.and_eq_true, List.all_eq_true, allComparable_iff]

theorem allComparable_perm {l1 l2 : List (List Tok)} (hp : l1.Perm l2) :
    allComparable l1 = allComparable l2 := by
  have hiff := (List.Perm.pairwise_iff
    (fun h => comparableKeys_symm h) hp :
      l1.Pairwise (fun k1 k2 => comparableKeys k1 k2 = true) ↔
      l2.Pairwise (fun k1 k2 => comparableKeys k1 k2 = true))
  cases h1 : allComparable l1 <;> cases h2 : allComparable l2 <;> try rfl
  · rw [← Bool.not_eq_true] at h1
    rw [allComparable_iff] at h1 h2
    exact absurd (hiff.mpr h2) h1
  · rw [← Bool.not_eq_true] at h2
    rw [allComparable_iff] at h1 h2
    exact absurd (hiff.mp h1) h2

/-! ### Claims C2 and C3: the natural key ordering -/

/-- **C2** (claimed: for every pair of stems, comparing their keys is
well-defined and a total order).  The code violates this: the stems `"1"`
and `"a"` produce the keys `[1]` and `['a', -1]`, whose comparison pits
the `int` entry `1` against the `str` entry `'a'` — in Python,
`sorted(['1.pdf', 'a.pdf'], key=...)` raises
`TypeError: '<' not supported between instances of 'str' and 'int'`
(modelled by the comparator returning `none`, in both directions). -/
theorem mixed_key_comparison_type_error :
    sectioned_mixed_key "1" = [Tok.int 1]
    ∧ sectioned_mixed_key "a" = [Tok.str ['a'], Tok.int (-1)]
    ∧ cmpKey (sectioned_mixed_key "1") (sectioned_mixed_key "a") = none
    ∧ cmpKey (sectioned_mixed_key "a") (sectioned_mixed_key "1") = none
    ∧ sorted_mixed_basename ["1.pdf", "a.pdf"] = none := by
  refine ⟨?_, ?_, ?_, ?_, ?_⟩ <;> decide

/-- **C3**: if the keys of two stems agree except for a single integer
entry (the situation of two stems that differ only in the magnitude of
one integer segment, e.g. `"D2"` vs `"D10"`), the natural key comparison
orders them by the numeric value of that entry: `m < n` makes the first
stem sort strictly before the second. -/
theorem natural_key_numeric_order (a b : String) (p s : List Tok) (m n : Int)
    (ha : sectioned_mixed_key a = p ++ Tok.int m :: s)
    (hb : sectioned_mixed_key b = p ++ Tok.int n :: s)
    (hmn : m < n) :
    cmpKey (sectioned_mixed_key a) (sectioned_mixed_key b) = some Ordering.lt := by
  rw [ha, hb, cmpKey_append, cmpKey_cons,
    show cmpTok (Tok.int m) (Tok.int n) = some (cmpInt m n) from rfl,
    cmpInt_lt_iff.mpr hmn]

/-- Witness for C3 at `"D2"` vs `"D10"`: the keys are `['D', 2]` and
`['D', 10]`, and `"D2"` compares strictly below `"D10"` (numeric order,
not the lexicographic string order which would put `"D10"` first). -/
theorem natural_key_numeric_order_witness :
    sectioned_mixed_key "D2" = [Tok.str ['D']] ++ Tok.int 2 :: []
    ∧ sectioned_mixed_key "D10" = [Tok.str ['D']] ++ Tok.int 10 :: []
    ∧ (2 : Int) < 10
    ∧ cmpKey (sectioned_mixed_key "D2") (sectioned_mixed_key "D10") = some Ordering.lt :=
  ⟨by decide, by decide, by decide,
    natural_key_numeric_order "D2" "D10" [Tok.str ['D']] [] 2 10 (by decide) (by decide)
      (by decide)⟩

/-! ### `run_parallel`: the bounded task scheduler

```
def run_parallel(args_set, runfn, max_active):
    nr_active = 0
    threads = []
    for arg in args_set:
        nr_active += 1
        def run_and_dec(arg):
            nonlocal nr_active
            runfn(arg)
            nr_active -= 1
        t = threading.Thread(target=lambda: run_and_dec(arg))
        t.start()
        threads.append(t)
        while nr_active >= max_active:
            time.sleep(0.1)
    for t in threads:
        t.join()
```

The model is a small-step state machine over interleavings of atomic
events, one per executed Python statement (CPython's interpreter lock
makes single statements of this code observable in this granularity).
Facts of the source reflected in the events:

* the thread target `lambda: run_and_dec(arg)` closes over the loop
  variable `arg` by reference, so a thread reads the value `arg` has
  when the thread first runs (`Ev.readArg`), not the value it had when
  the thread was created;
* a failing external command makes `runfn` call `err`, which calls
  `sys.exit(1)`; in a non-main thread the raised `SystemExit` only
  terminates that thread (CPython `threading` swallows it), so a failed
  task ends its thread without ever executing `nr_active -= 1` and
  without terminating the process (`Ev.complete` on a failing task);
* the launch loop may proceed past the `while nr_active >= max_active`
  poll only when `nr_active < max_active`, except before the first
  launch, which is not guarded;
* the `while` poll also guards leaving the `for` loop after the last
  launch (`Ev.beginJoin`), and `run_parallel` returns only once every
  thread has terminated (`Ev.finish`).
-/

/-- One schedulable work item: an identifying position in `args_set`
plus whether its external command will succeed. -/
structure Task where
  id : Nat
  ok : Bool
deriving DecidableEq

/-- The state of one spawned thread. -/
inductive TState where
  | unread
  | running (t : Task)
  | ranOk (t : Task)
  | finished (t : Task)
deriving DecidableEq

/-- Where the main thread is. -/
inductive Phase where
  | launching
  | joining
  | returned
deriving DecidableEq

/-- The interleaved state of `run_parallel`. -/
structure Sched where
  pending : List Task
  argVar : Option Task
  threads : List TState
  nrActive : Nat
  phase : Phase
deriving DecidableEq

/-- Atomic events: `launch` is one main-loop iteration head (rebind
`arg`, `nr_active += 1`, `Thread(...).start()`); `readArg i` is thread
`i` evaluating its closure's `arg`; `complete i` is `runfn` returning in
thread `i` (or raising `SystemExit` if the task fails); `decrement i` is
thread `i` running `nr_active -= 1`; `beginJoin` is the main thread
passing the final poll; `finish` is the join loop completing. -/
inductive Ev where
  | launch
  | readArg (i : Nat)
  | complete (i : Nat)
  | decrement (i : Nat)
  | beginJoin
  | finish
deriving DecidableEq

/-- The main thread may proceed past the poll: before the first launch
there is no poll, afterwards it requires `nr_active < max_active`. -/
def canLaunch (k : Nat) (s : Sched) : Bool :=
  s.threads.isEmpty || decide (s.nrActive < k)

/-- The thread has terminated (its `join` returns immediately). -/
def isTerminated : TState → Bool
  | TState.finished _ => true
  | _ => false

/-- One atomic step of the interleaving; `none` when the event is not
enabled in the given state. -/
def step (k : Nat) (s : Sched) : Ev → Option Sched
  | Ev.launch =>
    match s.phase, s.pending with
    | Phase.launching, t :: rest =>
      if canLaunch k s then
        some { s with pending := rest, argVar := some t,
                      nrActive := s.nrActive + 1,
                      threads := s.threads ++ [TState.unread] }
      else none
    | _, _ => none
  | Ev.readArg i =>
    match s.threads[i]?, s.argVar with
    | some TState.unread, some t =>
      some { s with threads := s.threads.set i (TState.running t) }
    | _, _ => none
  | Ev.complete i =>
    match s.threads[i]? with
    | some (TState.running t) =>
      some { s with threads :=
        s.threads.set i (if t.ok then TState.ranOk t else TState.finished t) }
    | _ => none
  | Ev.decrement i =>
    match s.threads[i]? with
    | some (TState.ranOk t) =>
      some { s with threads := s.threads.set i (TState.finished t),
                    nrActive := s.nrActive - 1 }
    | _ => none
  | Ev.beginJoin =>
    match s.phase, s.pending with
    | Phase.launching, [] =>
      if canLaunch k s then some { s with phase := Phase.joining } else none
    | _, _ => none
  | Ev.finish =>
    match s.phase with
    | Phase.joining =>
      if s.threads.all isTerminated then some { s with phase := Phase.returned } else none
    | _ => none

/-- The state at entry of `run_parallel(tasks, runfn, k)`. -/
def initSched (tasks : List Task) : Sched :=
  { pending := tasks, argVar := none, threads := [], nrActive := 0,
    phase := Phase.launching }

/-- Run a sequence of events; `none` if some event was not enabled. -/
def runEvs (k : Nat) (s : Sched) : List Ev → Option Sched
  | [] => some s
  | e :: evs =>
    match step k s e with
    | some s2 => runEvs k s2 evs
    | none => none

/-- All states of `run_parallel(tasks, runfn, k)` reachable under some
interleaving. -/
def run_parallel_model (k : Nat) (tasks : List Task) (evs : List Ev) : Option Sched :=
  runEvs k (initSched tasks) evs

/-- The thread has been launched and its task has not completed. -/
def liveP (t : TState) : Bool := !(isTerminated t)

/-- The thread terminated through a failing task (it never ran
`nr_active -= 1`). -/
def failP : TState → Bool
  | TState.finished t2 => !t2.ok
  | _ => false

/-- Tasks outstanding: threads launched whose work has not completed. -/
def outstanding (s : Sched) : Nat := s.threads.countP liveP

/-- Threads that terminated through a failing task. -/
def finishedFailed (s : Sched) : Nat := s.threads.countP failP

theorem liveP_unread : liveP TState.unread = true := rfl

theorem liveP_running (t : Task) : liveP (TState.running t) = true := rfl

theorem liveP_ranOk (t : Task) : liveP (TState.ranOk t) = true := rfl

theorem liveP_finished (t : Task) : liveP (TState.finished t) = false := rfl

theorem failP_unread : failP TState.unread = false := rfl

theorem failP_running (t : Task) : failP (TState.running t) = false := rfl

theorem failP_ranOk (t : Task) : failP (TState.ranOk t) = false := rfl

theorem failP_finished (t : Task) : failP (TState.finished t) = !t.ok := rfl

/-- The tasks the spawned threads actually executed (each thread runs
the value it read from the shared loop variable `arg`). -/
def executedTasks (s : Sched) : List Task :=
  s.threads.filterMap (fun t =>
    match t with
    | TState.unread => none
    | TState.running t2 => some t2
    | TState.ranOk t2 => some t2
    | TState.finished t2 => some t2)

/-! ### The concurrency bound (C4) -/

theorem countP_set_eq {α : Type} (p : α → Bool) :
    ∀ (l : List α) (i : Nat) (old new : α), l[i]? = some old →
      (l.set i new).countP p + (if p old then 1 else 0)
        = l.countP p + (if p new then 1 else 0)
  | [], i, _, _, h => by simp at h
  | a :: l, 0, old, new, h => by
    simp only [List.getElem?_cons_zero, Option.some.injEq] at h
    subst h
    simp [List.countP_cons]
    omega
  | a :: l, i + 1, old, new, h => by
    simp only [List.getElem?_cons_succ] at h
    have hrec := countP_set_eq p l i old new h
    simp only [List.set_cons_succ, List.countP_cons]
    omega

/-- The inductive invariant of the scheduler: `nr_active` counts the
non-terminated threads plus the threads that died of a failing task
(which skipped their decrement), it never exceeds `max_active`, and a
thread in the post-`runfn`, pre-decrement state always carries a
successful task. -/
def SchedInv (k : Nat) (s : Sched) : Prop :=
  s.nrActive = outstanding s + finishedFailed s
  ∧ s.nrActive ≤ k
  ∧ ∀ tk : Task, TState.ranOk tk ∈ s.threads → tk.ok = true

theorem initSched_inv (k : Nat) (tasks : List Task) : SchedInv k (initSched tasks) := by
  refine ⟨?_, ?_, ?_⟩ <;> simp [initSched, outstanding, finishedFailed]


theorem step_inv {k : Nat} {s s2 : Sched} {e : Ev} (hk : 1 ≤ k)
    (hinv : SchedInv k s) (h : step k s e = some s2) : SchedInv k s2 := by
  obtain ⟨h1, h2, h3⟩ := hinv
  obtain ⟨pnd, av, thr, na, ph⟩ := s
  dsimp only [outstanding, finishedFailed] at h1 h2 h3
  cases e with
  | launch =>
    cases ph with
    | joining => exact absurd h (by simp [step])
    | returned => exact absurd h (by simp [step])
    | launching =>
      cases pnd with
      | nil => exact absurd h (by simp [step])
      | cons t rest =>
        simp only [step] at h
        by_cases hc : canLaunch k ⟨t :: rest, av, thr, na, Phase.launching⟩ = true
        · rw [if_pos hc] at h
          injection h with h
          subst h
          refine ⟨?_, ?_, ?_⟩
          · dsimp only [outstanding, finishedFailed]
            rw [List.countP_append, List.countP_append]
            simp [List.countP_cons, liveP_unread, failP_unread]
            omega
          · have hc2 := hc
            simp only [canLaunch, Bool.or_eq_true, decide_eq_true_eq] at hc2
            dsimp only
            rcases hc2 with hemp | hlt
            · have hthr : thr = [] := by simpa using hemp
              subst hthr
              simp only [List.countP_nil] at h1
              omega
            · omega
          · intro tk htk
            dsimp only at htk
            simp only [List.mem_append] at htk
            rcases htk with htk | htk
            · exact h3 tk htk
            · simp at htk
        · rw [if_neg hc] at h
          exact absurd h (by simp)
  | readArg i =>
    simp only [step] at h
    cases hti : thr[i]? with
    | none =>
      rw [hti] at h
      simp at h
    | some tst =>
      rw [hti] at h
      cases hav : av with
      | none =>
        rw [hav] at h
        cases tst <;> simp at h
      | some t =>
        rw [hav] at h
        cases tst with
        | running t2 => simp at h
        | ranOk t2 => simp at h
        | finished t2 => simp at h
        | unread =>
          injection h with h
          subst h
          have hout := countP_set_eq liveP thr i _ (TState.running t) hti
          have hff := countP_set_eq failP thr i _ (TState.running t) hti
          simp only [liveP_unread, liveP_running, failP_unread, failP_running] at hout hff
          simp at hout hff
          refine ⟨?_, by dsimp only; exact h2, ?_⟩
          · dsimp only [outstanding, finishedFailed]
            omega
          · intro tk htk
            dsimp only at htk
            rcases List.mem_or_eq_of_mem_set htk with htk | htk
            · exact h3 tk htk
            · simp at htk
  | complete i =>
    simp only [step] at h
    cases hti : thr[i]? with
    | none =>
      rw [hti] at h
      simp at h
    | some tst =>
      rw [hti] at h
      cases tst with
      | unread => simp at h
      | ranOk t2 => simp at h
      | finished t2 => simp at h
      | running t =>
        injection h with h
        subst h
        by_cases hok : t.ok = true
        · simp only [hok, reduceIte]
          have hout := countP_set_eq liveP thr i _ (TState.ranOk t) hti
          have hff := countP_set_eq failP thr i _ (TState.ranOk t) hti
          simp only [liveP_running, liveP_ranOk, failP_running, failP_ranOk] at hout hff
          simp at hout hff
          refine ⟨?_, by dsimp only; exact h2, ?_⟩
          · dsimp only [outstanding, finishedFailed]
            omega
          · intro tk htk
            dsimp only at htk
            rcases List.mem_or_eq_of_mem_set htk with htk | htk
            · exact h3 tk htk
            · injection htk with htk
              rw [← htk] at hok
              exact hok
        · rw [Bool.not_eq_true] at hok
          simp only [hok, Bool.false_eq_true, reduceIte]
          have hout := countP_set_eq liveP thr i _ (TState.finished t) hti
          have hff := countP_set_eq failP thr i _ (TState.finished t) hti
          simp only [liveP_running, liveP_finished, failP_running, failP_finished,
            hok] at hout hff
          simp at hout hff
          refine ⟨?_, by dsimp only; exact h2, ?_⟩
          · dsimp only [outstanding, finishedFailed]
            omega
          · intro tk htk
            dsimp only at htk
            rcases List.mem_or_eq_of_mem_set htk with htk | htk
            · exact h3 tk htk
            · simp at htk
  | decrement i =>
    simp only [step] at h
    cases hti : thr[i]? with
    | none =>
      rw [hti] at h
      simp at h
    | some tst =>
      rw [hti] at h
      cases tst with
      | unread => simp at h
      | running t2 => simp at h
      | finished t2 => simp at h
      | ranOk t =>
        injection h with h
        subst h
        have htok : t.ok = true := h3 t (by
          obtain ⟨hlen, hget⟩ := List.getElem?_eq_some_iff.mp hti
          exact hget ▸ List.getElem_mem hlen)
        have hout := countP_set_eq liveP thr i _ (TState.finished t) hti
        have hff := countP_set_eq failP thr i _ (TState.finished t) hti
        simp only [liveP_ranOk, liveP_finished, failP_ranOk, failP_finished,
          htok] at hout hff
        simp at hout hff
        refine ⟨?_, by dsimp only; omega, ?_⟩
        · dsimp only [outstanding, finishedFailed]
          omega
        · intro tk htk
          dsimp only at htk
          rcases List.mem_or_eq_of_mem_set htk with htk | htk
          · exact h3 tk htk
          · simp at htk
  | beginJoin =>
    cases ph with
    | joining => exact absurd h (by simp [step])
    | returned => exact absurd h (by simp [step])
    | launching =>
      cases pnd with
      | cons t rest => exact absurd h (by simp [step])
      | nil =>
        simp only [step] at h
        by_cases hc : canLaunch k ⟨[], av, thr, na, Phase.launching⟩ = true
        · rw [if_pos hc] at h
          injection h with h
          subst h
          exact ⟨h1, h2, h3⟩
        · rw [if_neg hc] at h
          exact absurd h (by simp)
  | finish =>
    cases ph with
    | launching => exact absurd h (by simp [step])
    | returned => exact absurd h (by simp [step])
    | joining =>
      simp only [step] at h
      by_cases hc : thr.all isTerminated = true
      · rw [if_pos hc] at h
        injection h with h
        subst h
        exact ⟨h1, h2, h3⟩
      · rw [if_neg hc] at h
        exact absurd h (by simp)

theorem runEvs_inv {k : Nat} (hk : 1 ≤ k) :
    ∀ {evs : List Ev} {s s2 : Sched}, SchedInv k s → runEvs k s evs = some s2 → SchedInv k s2
  | [], s, s2, hinv, h => by
    injection h with h
    subst h
    exact hinv
  | e :: evs, s, s2, hinv, h => by
    unfold runEvs at h
    cases hstep : step k s e with
    | none =>
      rw [hstep] at h
      exact absurd h (by simp)
    | some s3 =>
      rw [hstep] at h
      exact runEvs_inv hk (step_inv hk hinv hstep) h

/-- **C4**: for every task list, every `max_concurrency ≥ 1` and every
interleaving of the scheduler's atomic events, every reachable state of
`run_parallel` has at most `max_concurrency` outstanding tasks
(threads launched whose work has not completed — threads that have not
yet read their argument and threads whose decrement is still pending
both count as outstanding). -/
theorem run_parallel_concurrency_bound (k : Nat) (tasks : List Task) (evs : List Ev)
    (s : Sched) (hk : 1 ≤ k) (h : run_parallel_model k tasks evs = some s) :
    outstanding s ≤ k := by
  have hinv := runEvs_inv hk (initSched_inv k tasks) h
  obtain ⟨h1, h2, _⟩ := hinv
  omega

/-- Witness for C4: with bound 1 and two tasks, the state reached by
launching, reading, completing and decrementing the first task and then
launching the second respects the bound. -/
theorem run_parallel_concurrency_bound_witness :
    1 ≤ 1
    ∧ run_parallel_model 1 [⟨0, true⟩, ⟨1, true⟩]
        [Ev.launch, Ev.readArg 0, Ev.complete 0, Ev.decrement 0, Ev.launch]
        = some ⟨[], some ⟨1, true⟩, [TState.finished ⟨0, true⟩, TState.unread], 1,
            Phase.launching⟩
    ∧ outstanding ⟨[], some ⟨1, true⟩, [TState.finished ⟨0, true⟩, TState.unread], 1,
        Phase.launching⟩ ≤ 1 :=
  ⟨by decide, by decide,
    run_parallel_concurrency_bound 1 [⟨0, true⟩, ⟨1, true⟩]
      [Ev.launch, Ev.readArg 0, Ev.complete 0, Ev.decrement 0, Ev.launch] _
      (by decide) (by decide)⟩

/-- **C5** (claimed: `run_parallel` returns only after every submitted
task has run, with each element of the input task list executed).  The
code violates the second half: the thread target
`lambda: run_and_dec(arg)` closes over the loop variable `arg`, so with
two tasks and `max_active = 2` both threads can read `arg` after the
main loop rebound it to the second task.  In that interleaving
`run_parallel` returns with the second task executed twice and the
first task never executed. -/
theorem run_parallel_task_skipped :
    run_parallel_model 2 [⟨0, true⟩, ⟨1, true⟩]
        [Ev.launch, Ev.launch, Ev.readArg 0, Ev.readArg 1, Ev.complete 0, Ev.decrement 0,
         Ev.complete 1, Ev.decrement 1, Ev.beginJoin, Ev.finish]
      = some ⟨[], some ⟨1, true⟩,
          [TState.finished ⟨1, true⟩, TState.finished ⟨1, true⟩], 0, Phase.returned⟩
    ∧ executedTasks ⟨[], some ⟨1, true⟩,
          [TState.finished ⟨1, true⟩, TState.finished ⟨1, true⟩], 0, Phase.returned⟩
        = [⟨1, true⟩, ⟨1, true⟩]
    ∧ (⟨0, true⟩ : Task) ∉ executedTasks ⟨[], some ⟨1, true⟩,
          [TState.finished ⟨1, true⟩, TState.finished ⟨1, true⟩], 0, Phase.returned⟩ := by
  refine ⟨?_, ?_, ?_⟩ <;> decide

/-- **C1** (claimed: a failing task terminates the entire process
immediately with a non-zero exit status, so no later pipeline stage
runs).  The code violates this: `err` calls `sys.exit(1)`, which raises
`SystemExit`; raised inside a worker thread it terminates only that
thread.  With one failing task and `max_active = 2` the scheduler joins
the dead thread and `run_parallel` returns normally (phase `returned`
with one failed, never-decremented thread), after which the pipeline
continues with the following stages. -/
theorem run_parallel_failure_not_fatal :
    run_parallel_model 2 [⟨0, false⟩]
        [Ev.launch, Ev.readArg 0, Ev.complete 0, Ev.beginJoin, Ev.finish]
      = some ⟨[], some ⟨0, false⟩, [TState.finished ⟨0, false⟩], 1, Phase.returned⟩
    ∧ finishedFailed ⟨[], some ⟨0, false⟩, [TState.finished ⟨0, false⟩], 1,
        Phase.returned⟩ = 1
    ∧ (⟨[], some ⟨0, false⟩, [TState.finished ⟨0, false⟩], 1, Phase.returned⟩ : Sched).phase
        = Phase.returned := by
  refine ⟨?_, ?_, ?_⟩ <;> decide

/-! ### Source resolution (C6)

```
pdfs = []
for src in prog_args.src:
    if os.path.isdir(src):
        pdfs += sorted_mixed_basename(glob.glob(f'{src}/*.pdf'))
        continue
    elif os.path.isfile(src):
        pdfs.append(src)
        continue
    elif is_windows() and len(src) and src[-1] == '"':
        src = src[:-1]
        ... same two checks ...
    err(f'Invalid source file/dir "{src}"')
if not prog_args.keep_order:
    pdfs = sorted_mixed_basename(pdfs)
```

The filesystem is a parameter: which paths are directories, which are
files, and what `glob.glob(f'{src}/*.pdf')` returns. -/

structure FS where
  isdir : String → Bool
  isfile : String → Bool
  globPdfs : String → List String
  windows : Bool

/-- How source resolution can die: `err` on an invalid path (exit 1), or
an uncaught `TypeError` from `sorted` (non-zero exit). -/
inductive SrcError where
  | invalid (src : String)
  | typeError
deriving DecidableEq

/-- `len(src) and src[-1] == '"'`. -/
def trailingQuote (s : String) : Bool :=
  match s.data.getLast? with
  | some c => c = '"'
  | none => false

/-- Directory expansion: `sorted_mixed_basename(glob.glob(f'{src}/*.pdf'))`. -/
def expandDir (fs : FS) (d : String) : Except SrcError (List String) :=
  match sorted_mixed_basename (fs.globPdfs d) with
  | some l => Except.ok l
  | none => Except.error SrcError.typeError

/-- One iteration of the `for src in prog_args.src` loop. -/
def resolveSrc (fs : FS) (src : String) : Except SrcError (List String) :=
  if fs.isdir src then expandDir fs src
  else if fs.isfile src then Except.ok [src]
  else if fs.windows && trailingQuote src then
    let s2 := String.mk src.data.dropLast
    if fs.isdir s2 then expandDir fs s2
    else if fs.isfile s2 then Except.ok [s2]
    else Except.error (SrcError.invalid src)
  else Except.error (SrcError.invalid src)

/-- The whole loop; `err` aborts at the first invalid source. -/
def resolveAll (fs : FS) : List String → Except SrcError (List String)
  | [] => Except.ok []
  | s :: rest =>
    match resolveSrc fs s with
    | Except.error e => Except.error e
    | Except.ok l =>
      match resolveAll fs rest with
      | Except.error e => Except.error e
      | Except.ok ls => Except.ok (l ++ ls)

/-- Source resolution: the loop, followed by the global re-sort when
`keep_order` is off. -/
def pdfs (fs : FS) (srcList : List String) (keep_order : Bool) :
    Except SrcError (List String) :=
  match resolveAll fs srcList with
  | Except.error e => Except.error e
  | Except.ok l =>
    if keep_order then Except.ok l
    else
      match sorted_mixed_basename l with
      | some l2 => Except.ok l2
      | none => Except.error SrcError.typeError

/-- The expansion of one command-line input as the spec describes it
(file: itself; directory: its pdfs in natural-key order).  Used to state
the amended claim; on comparable keys it coincides with what the code
computes. -/
def expandSpec (fs : FS) (src : String) : List String :=
  if fs.isdir src then (sorted_mixed_basename (fs.globPdfs src)).getD [] else [src]

/-- Sorted by the (partial, Python) natural-key comparator: every
earlier element compares `lt` or `eq` to every later element. -/
def sortedByNaturalKey (l : List String) : Prop :=
  l.Pairwise (fun a b => cmpKey (keyOf a) (keyOf b) = some Ordering.lt
    ∨ cmpKey (keyOf a) (keyOf b) = some Ordering.eq)

/-- On a list with pairwise comparable keys, the model's stable sort is
a natural-key-sorted permutation of the input. -/
theorem isort_keyOf_spec {l : List String} (hc : allComparable (l.map keyOf) = true) :
    (isort (fun a b => leKeyT (keyOf a) (keyOf b)) l).Perm l
    ∧ sortedByNaturalKey (isort (fun a b => leKeyT (keyOf a) (keyOf b)) l) := by
  have hperm := isort_perm (fun a b => leKeyT (keyOf a) (keyOf b)) l
  refine ⟨hperm, ?_⟩
  have hsorted := pairwise_isort (fun a b => leKeyT (keyOf a) (keyOf b))
    (fun a b c hab hbc => leKeyT_trans hab hbc)
    (fun a b => leKeyT_total (keyOf a) (keyOf b)) l
  have hcomp : l.Pairwise (fun a b => comparableKeys (keyOf a) (keyOf b) = true) := by
    have := allComparable_iff.mp hc
    exact (List.pairwise_map).mp this
  have hcomp2 : (isort (fun a b => leKeyT (keyOf a) (keyOf b)) l).Pairwise
      (fun a b => comparableKeys (keyOf a) (keyOf b) = true) :=
    (List.Perm.pairwise_iff (fun h => comparableKeys_symm h) hperm).mpr hcomp
  exact (hsorted.and hcomp2).imp (fun hab => (leKeyT_agrees hab.2).mp hab.1)

/-- Success form of the sort on comparable keys. -/
theorem sorted_mixed_basename_eq {l : List String}
    (hc : allComparable (l.map keyOf) = true) :
    sorted_mixed_basename l = some (isort (fun a b => leKeyT (keyOf a) (keyOf b)) l) := by
  unfold sorted_mixed_basename
  rw [if_pos hc]

/-- On the loop level: if every input is a file or a directory with
pairwise-comparable pdf stems, the loop succeeds and produces exactly
the concatenation of per-input expansions, in input order. -/
theorem resolveAll_ok {fs : FS} : ∀ {srcList : List String},
    (∀ s ∈ srcList, fs.isdir s = true ∨ fs.isfile s = true) →
    (∀ s ∈ srcList, fs.isdir s = true → allComparable ((fs.globPdfs s).map keyOf) = true) →
    resolveAll fs srcList = Except.ok (srcList.flatMap (expandSpec fs))
  | [], _, _ => rfl
  | s :: rest, hv, hc => by
    have hrec := resolveAll_ok (fun x hx => hv x (List.mem_cons_of_mem s hx))
      (fun x hx => hc x (List.mem_cons_of_mem s hx))
    unfold resolveAll
    rw [hrec, List.flatMap_cons]
    by_cases hd : fs.isdir s = true
    · have hcs := hc s (List.mem_cons_self s rest) hd
      simp only [resolveSrc, if_pos hd, expandDir, sorted_mixed_basename_eq hcs,
        expandSpec, Option.getD_some]
    · rcases hv s (List.mem_cons_self s rest) with hd2 | hf
      · exact absurd hd2 hd
      · rw [Bool.not_eq_true] at hd
        simp only [resolveSrc, hd, Bool.false_eq_true, if_false, if_pos hf, expandSpec,
          reduceIte]

/-- An invalid path somewhere in the inputs makes the loop die in `err`
(or earlier, in a `TypeError` from an earlier directory). -/
theorem resolveAll_err {fs : FS} (hw : fs.windows = false) :
    ∀ {srcList : List String} {s : String}, s ∈ srcList →
      fs.isdir s = false → fs.isfile s = false →
      ∃ e, resolveAll fs srcList = Except.error e
  | [], s, hmem, _, _ => absurd hmem (List.not_mem_nil s)
  | s0 :: rest, s, hmem, hd, hf => by
    unfold resolveAll
    rcases List.mem_cons.mp hmem with he | he
    · subst he
      rw [show resolveSrc fs s = Except.error (SrcError.invalid s) from by
        simp [resolveSrc, hd, hf, hw]]
      exact ⟨SrcError.invalid s, rfl⟩
    · cases hr : resolveSrc fs s0 with
      | error e => exact ⟨e, rfl⟩
      | ok l =>
        obtain ⟨e, herr⟩ := resolveAll_err hw he hd hf
        rw [herr]
        exact ⟨e, rfl⟩

theorem pdfs_err {fs : FS} {srcList : List String} {e : SrcError}
    (h : resolveAll fs srcList = Except.error e) (ko : Bool) :
    pdfs fs srcList ko = Except.error e := by
  unfold pdfs
  rw [h]

/-- **C6 counterexample**: the claim says a directory input expands to
its contained documents in natural-key order (and that only a path that
is neither file nor directory is a fatal error).  A valid directory
containing `1.pdf` and `a.pdf` instead makes resolution die with the
`TypeError` of C2, under both `keep_order` settings. -/
theorem source_resolution_type_error :
    (FS.mk (fun s => s = "specs") (fun _ => false)
        (fun s => if s = "specs" then ["1.pdf", "a.pdf"] else []) false).isdir "specs" = true
    ∧ pdfs (FS.mk (fun s => s = "specs") (fun _ => false)
        (fun s => if s = "specs" then ["1.pdf", "a.pdf"] else []) false) ["specs"] true
      = Except.error SrcError.typeError
    ∧ pdfs (FS.mk (fun s => s = "specs") (fun _ => false)
        (fun s => if s = "specs" then ["1.pdf", "a.pdf"] else []) false) ["specs"] false
      = Except.error SrcError.typeError := by
  refine ⟨by decide, by rfl, by rfl⟩

/-- **C6 amended**: provided every natural-key comparison involved is
well-defined (pairwise comparable keys — otherwise the C2 `TypeError`
kills resolution, see the counterexample), source resolution behaves as
claimed: with `keep_order` the output is the concatenation of per-input
expansions in input order, where a file expands to itself and a
directory to a natural-key-sorted permutation of its pdfs; without
`keep_order` the combined list is re-sorted globally by natural key; a
path that is neither file nor directory is a fatal error. -/
theorem source_resolution_amended (fs : FS) (srcList : List String)
    (hw : fs.windows = false) :
    ((∀ s ∈ srcList, fs.isdir s = true ∨ fs.isfile s = true) →
     (∀ s ∈ srcList, fs.isdir s = true →
        allComparable ((fs.globPdfs s).map keyOf) = true) →
       (pdfs fs srcList true = Except.ok (srcList.flatMap (expandSpec fs))
        ∧ (∀ s ∈ srcList, fs.isdir s = true →
             (expandSpec fs s).Perm (fs.globPdfs s) ∧ sortedByNaturalKey (expandSpec fs s))
        ∧ (∀ s ∈ srcList, fs.isdir s = false → expandSpec fs s = [s])
        ∧ (allComparable (((srcList.flatMap (expandSpec fs))).map keyOf) = true →
             ∃ out, pdfs fs srcList false = Except.ok out
               ∧ out.Perm (srcList.flatMap (expandSpec fs))
               ∧ sortedByNaturalKey out)))
    ∧ (∀ s ∈ srcList, fs.isdir s = false → fs.isfile s = false →
         ∀ ko : Bool, ∃ e, pdfs fs srcList ko = Except.error e) := by
  constructor
  · intro hv hc
    have hall := resolveAll_ok hv hc
    refine ⟨?_, ?_, ?_, ?_⟩
    · simp only [pdfs, hall, reduceIte]
    · intro s hs hd
      have hcs := hc s hs hd
      have hspec := isort_keyOf_spec hcs
      unfold expandSpec
      rw [if_pos hd, sorted_mixed_basename_eq hcs, Option.getD_some]
      exact ⟨hspec.1, hspec.2⟩
    · intro s hs hd
      unfold expandSpec
      simp [hd]
    · intro hgc
      have hspec := isort_keyOf_spec hgc
      refine ⟨_, ?_, hspec.1, hspec.2⟩
      simp only [pdfs, hall, reduceIte, sorted_mixed_basename_eq hgc,
        Bool.false_eq_true, if_false]
  · intro s hs hd hf ko
    obtain ⟨e, he⟩ := resolveAll_err hw hs hd hf
    exact ⟨e, pdfs_err he ko⟩

/-- A small concrete filesystem for the C6 witness: one plain file
`z.pdf` and one directory `specs` holding `L10.pdf` and `L2.pdf` (listed
by `glob` out of order). -/
def fsDemo : FS :=
  FS.mk (fun s => s = "specs") (fun s => s = "z.pdf")
    (fun s => if s = "specs" then ["specs/L10.pdf", "specs/L2.pdf"] else []) false

/-- Witness for the amended C6 at `fsDemo` with inputs
`[z.pdf, specs]`: with `keep_order` the file stays first and the
directory expands in natural-key order (`L2` before `L10`); without
`keep_order` the whole list is re-sorted by natural key. -/
theorem source_resolution_amended_witness :
    fsDemo.windows = false
    ∧ pdfs fsDemo ["z.pdf", "specs"] true
        = Except.ok ["z.pdf", "specs/L2.pdf", "specs/L10.pdf"]
    ∧ pdfs fsDemo ["z.pdf", "specs"] false
        = Except.ok ["specs/L2.pdf", "specs/L10.pdf", "z.pdf"]
    ∧ (((∀ s ∈ ["z.pdf", "specs"], fsDemo.isdir s = true ∨ fsDemo.isfile s = true) →
        (∀ s ∈ ["z.pdf", "specs"], fsDemo.isdir s = true →
           allComparable ((fsDemo.globPdfs s).map keyOf) = true) →
          (pdfs fsDemo ["z.pdf", "specs"] true
              = Except.ok (["z.pdf", "specs"].flatMap (expandSpec fsDemo))
           ∧ (∀ s ∈ ["z.pdf", "specs"], fsDemo.isdir s = true →
                (expandSpec fsDemo s).Perm (fsDemo.globPdfs s)
                ∧ sortedByNaturalKey (expandSpec fsDemo s))
           ∧ (∀ s ∈ ["z.pdf", "specs"], fsDemo.isdir s = false → expandSpec fsDemo s = [s])
           ∧ (allComparable ((["z.pdf", "specs"].flatMap (expandSpec fsDemo)).map keyOf)
                = true →
                ∃ out, pdfs fsDemo ["z.pdf", "specs"] false = Except.ok out
                  ∧ out.Perm (["z.pdf", "specs"].flatMap (expandSpec fsDemo))
                  ∧ sortedByNaturalKey out)))
       ∧ (∀ s ∈ ["z.pdf", "specs"], fsDemo.isdir s = false → fsDemo.isfile s = false →
            ∀ ko : Bool, ∃ e, pdfs fsDemo ["z.pdf", "specs"] ko = Except.error e)) :=
  ⟨rfl, by rfl, by rfl, source_resolution_amended fsDemo ["z.pdf", "specs"] rfl⟩

/-! ### Stage output naming and list lengths (C7)

The 1:1 stages build their output name list by a `for src in srcs` loop
that appends exactly one name per input.  The render stage instead
collects, for every source, the files matching the glob pattern
`{tempdir}/SRC_{stem}*.png` (natural-key sorted within a source). -/

/-- `src.split('_', 1)[1]`: the part after the first underscore (every
artifact name produced by the pipeline contains one). -/
def afterUnderscore (s : String) : String :=
  String.mk ((s.data.dropWhile (fun c => c ≠ '_')).drop 1)

/-- Resize stage output names: `RESIZED_{src.split("_", 1)[1]}`. -/
def resized_names (srcs : List String) : List String :=
  srcs.map (fun src => "RESIZED_" ++ afterUnderscore src)

/-- Merge stage output names: `MERGED_{src.split("_", 1)[1]}`. -/
def merged_names (srcs : List String) : List String :=
  srcs.map (fun src => "MERGED_" ++ afterUnderscore src)

/-- `apply_labels` output names:
`{prefix}_{splitext(src.split('_', 1)[1])[0]}.png`; the label stage
passes `LABELED`, the numbering stage `NUMBERED`. -/
def apply_labels_names (pfx : String) (srcs : List String) : List String :=
  srcs.map (fun src =>
    pfx ++ "_" ++ String.mk (splitextChars (afterUnderscore src).data).1 ++ ".png")

/-- Decimal digits, most significant first; structural recursion on a
fuel argument (any fuel above the value itself suffices). -/
def natCharsAux : Nat → Nat → List Char
  | 0, _ => []
  | fuel + 1, n =>
    if n < 10 then [Nat.digitChar n]
    else natCharsAux fuel (n / 10) ++ [Nat.digitChar (n % 10)]

/-- Decimal digits of `n`, most significant first (ghostscript's `%d`
page index in `-sOutputFile=...SRC_{stem}-%d.png`). -/
def natChars (n : Nat) : List Char := natCharsAux (n + 1) n

/-- The bitmap ghostscript writes for page `i` of the source with the
given stem. -/
def pageFile (stem : String) (i : Nat) : String :=
  "SRC_" ++ stem ++ "-" ++ String.mk (natChars i) ++ ".png"

/-- All page bitmaps of one source: pages `1..n`. -/
def pageFiles (stem : String) (n : Nat) : List String :=
  (List.range n).map (fun j => pageFile stem (j + 1))

/-- Everything rendering leaves in the temporary directory (names
relative to it; the directory prefix is dropped exactly as the source's
`os.path.basename` does): one bitmap per page per document.  `docs`
lists `(stem, page count)` in pipeline order. -/
def renderedFiles (docs : List (String × Nat)) : List String :=
  docs.flatMap (fun d => pageFiles d.1 d.2)

def startsWithL : List Char → List Char → Bool
  | [], _ => true
  | _ :: _, [] => false
  | a :: as, b :: bs => a = b && startsWithL as bs

/-- Glob match of `{pat}*.png` against a file name: the name starts
with `pat`, ends with `.png`, and is long enough that the two parts do
not overlap. -/
def globMatch (pat : String) (f : String) : Bool :=
  decide (pat.data.length + 4 ≤ f.data.length)
    && startsWithL pat.data f.data
    && startsWithL (".png".data.reverse) f.data.reverse

/-- The render stage's output list (`new_srcs`): for each source in
order, the files in the temporary directory matching
`SRC_{stem}*.png`, natural-key sorted within the source; `none` when a
sort raises `TypeError`. -/
def render_new_srcs (docs : List (String × Nat)) : Option (List String) :=
  (docs.mapM (fun d =>
    sorted_mixed_basename
      ((renderedFiles docs).filter (globMatch ("SRC_" ++ d.1))))).map List.flatten

/-- The total page count across all input documents. -/
def totalPages (docs : List (String × Nat)) : Nat := (docs.map (fun d => d.2)).sum

/-- **C7 counterexample**: the claim says the render stage produces
exactly one artifact per rendered page.  With the two one-page sources
`D1.pdf` and `D10.pdf`, the glob pattern `SRC_D1*.png` of `D1` also
matches `D10`'s page file, so `new_srcs` lists `SRC_D10-1.png` twice:
three artifacts for two pages. -/
theorem render_stage_length_counterexample :
    renderedFiles [("D1", 1), ("D10", 1)] = ["SRC_D1-1.png", "SRC_D10-1.png"]
    ∧ globMatch ("SRC_" ++ "D1") "SRC_D10-1.png" = true
    ∧ render_new_srcs [("D1", 1), ("D10", 1)]
        = some ["SRC_D1-1.png", "SRC_D10-1.png", "SRC_D10-1.png"]
    ∧ totalPages [("D1", 1), ("D10", 1)] = 2
    ∧ (3 : Nat) ≠ 2 := by
  refine ⟨by rfl, by rfl, by rfl, by rfl, by decide⟩

/-! ### Facts about names of rendered pages -/

theorem startsWithL_append_self : ∀ (a b : List Char), startsWithL a (a ++ b) = true
  | [], _ => rfl
  | c :: a, b => by
    rw [List.cons_append]
    show (decide (c = c) && startsWithL a (a ++ b)) = true
    rw [startsWithL_append_self a b]
    simp

theorem takeWhile_eq_self_of_forall {p : Char → Bool} :
    ∀ {l : List Char}, (∀ c ∈ l, p c = true) → l.takeWhile p = l
  | [], _ => rfl
  | c :: l, h => by
    rw [List.takeWhile_cons, if_pos (h c (List.mem_cons_self c l))]
    rw [takeWhile_eq_self_of_forall (fun x hx => h x (List.mem_cons_of_mem c hx))]

/-- A path without `/` is its own basename. -/
theorem basenameChars_no_slash {l : List Char} (h : ∀ c ∈ l, c ≠ '/') :
    basenameChars l = l := by
  unfold basenameChars
  rw [takeWhile_eq_self_of_forall, List.reverse_reverse]
  intro c hc
  rw [List.mem_reverse] at hc
  exact decide_eq_true (h c hc)

/-- `os.path.splitext` strips a final `.png` whenever the base is not
entirely dots. -/
theorem splitextChars_append_png {y : List Char} (hy : y.any (fun c => c ≠ '.') = true) :
    splitextChars (y ++ ('.' :: 'p' :: 'n' :: 'g' :: []))
      = (y, '.' :: 'p' :: 'n' :: 'g' :: []) := by
  unfold splitextChars
  rw [List.reverse_append]
  have h2 : List.dropWhile (fun c => decide (c ≠ '.'))
      (('.' :: 'p' :: 'n' :: 'g' :: ([] : List Char)).reverse ++ y.reverse)
      = '.' :: y.reverse := rfl
  have h3 : List.takeWhile (fun c => decide (c ≠ '.'))
      (('.' :: 'p' :: 'n' :: 'g' :: ([] : List Char)).reverse ++ y.reverse)
      = ['g', 'n', 'p'] := rfl
  simp only [h2, h3]
  rw [List.any_reverse]
  simp [hy]
  simpa using hy

theorem chSplitA_append_sep {p : Char → Bool} {c : Char} (hc : p c = true) :
    ∀ x y, chSplitA p (x ++ c :: y)
      = ((chSplitA p x).1, (chSplitA p x).2 ++ chSplit p y)
  | [], y => by
    simp [chSplitA, chSplit, hc]
  | a :: x, y => by
    rw [List.cons_append]
    show chSplitA p (a :: (x ++ c :: y)) = _
    unfold chSplitA
    rw [chSplitA_append_sep hc x y]
    by_cases ha : p a = true
    · simp [ha]
    · simp [ha]

theorem chSplit_append_sep {p : Char → Bool} {c : Char} (hc : p c = true)
    (x y : List Char) : chSplit p (x ++ c :: y) = chSplit p x ++ chSplit p y := by
  unfold chSplit
  rw [chSplitA_append_sep hc]
  simp [chSplit]

theorem chSplitA_no_sep {p : Char → Bool} :
    ∀ {l : List Char}, (∀ c ∈ l, p c = false) → chSplitA p l = (l, [])
  | [], _ => rfl
  | a :: l, h => by
    unfold chSplitA
    rw [chSplitA_no_sep (fun c hc => h c (List.mem_cons_of_mem a hc))]
    simp [h a (List.mem_cons_self a l)]

theorem chSplit_no_sep {p : Char → Bool} {l : List Char}
    (h : ∀ c ∈ l, p c = false) : chSplit p l = [l] := by
  unfold chSplit
  rw [chSplitA_no_sep h]

/-- A decimal digit is a word character, not a separator. -/
theorem isSepChar_digit {c : Char} (hc : c.isDigit = true) : isSepChar c = false := by
  have h1 : c ≠ '-' := fun he => by
    rw [he] at hc
    exact absurd hc (by decide)
  have h2 : c ≠ '_' := fun he => by
    rw [he] at hc
    exact absurd hc (by decide)
  simp [isSepChar, isWordChar, Char.isAlphanum, hc, h1, h2]

theorem runsA_all_digits {c : Char} (hc : c.isDigit = true) :
    ∀ {l : List Char}, (∀ d ∈ l, d.isDigit = true) → runsA c l = (c :: l, [])
  | [], _ => rfl
  | d :: l, h => by
    have hd := h d (List.mem_cons_self d l)
    unfold runsA
    rw [runsA_all_digits hd (fun x hx => h x (List.mem_cons_of_mem d hx))]
    simp [hc, hd]

theorem runs_all_digits {l : List Char} (hne : l ≠ [])
    (h : ∀ c ∈ l, c.isDigit = true) : runs l = [l] := by
  cases l with
  | nil => exact absurd rfl hne
  | cons c l2 =>
    show (runsA c l2).1 :: (runsA c l2).2 = [c :: l2]
    rw [runsA_all_digits (h c (List.mem_cons_self c l2))
      (fun x hx => h x (List.mem_cons_of_mem c hx))]

/-- Processing a section that is one nonempty digit run: append the
integer token (with the `""` guard when needed); the `-1` sentinel is
skipped because the key now ends in an integer. -/
theorem pushSection_digits {keys : List Tok} {d : List Char} (hne : d ≠ [])
    (hd : ∀ c ∈ d, c.isDigit = true) :
    pushSection keys d
      = (if lastIsInt keys then keys ++ [Tok.str []] else keys)
        ++ [Tok.int (parseNat d)] := by
  unfold pushSection
  rw [runs_all_digits hne hd]
  simp only [List.foldl_cons, List.foldl_nil]
  have had : allDigits d = true := List.all_eq_true.mpr (fun c hc => hd c hc)
  unfold pushRun
  rw [if_pos had]
  have hlast : lastIsInt ((if lastIsInt keys then keys ++ [Tok.str []] else keys)
      ++ [Tok.int (parseNat d)]) = true := by
    unfold lastIsInt
    rw [List.getLast?_concat]
  simp [hlast]

/-- The key of `pre ++ "-" ++ digits`: the key of `pre`, the `""` guard
when that key ends in an integer, then the integer. -/
theorem smkc_append_digits (pre d : List Char) (hne : d ≠ [])
    (hd : ∀ c ∈ d, c.isDigit = true) :
    sectioned_mixed_key_chars (pre ++ '-' :: d)
      = (if lastIsInt (sectioned_mixed_key_chars pre)
         then sectioned_mixed_key_chars pre ++ [Tok.str []]
         else sectioned_mixed_key_chars pre)
        ++ [Tok.int (parseNat d)] := by
  unfold sectioned_mixed_key_chars
  rw [chSplit_append_sep (by decide : isSepChar '-' = true)]
  rw [chSplit_no_sep (fun c hc => isSepChar_digit (hd c hc))]
  rw [List.foldl_append]
  simp only [List.foldl_cons, List.foldl_nil]
  exact pushSection_digits hne hd

theorem natCharsAux_spec : ∀ (fuel n : Nat), n < fuel →
    natCharsAux fuel n ≠ [] ∧ ∀ c ∈ natCharsAux fuel n, c.isDigit = true
  | 0, n, h => absurd h (by omega)
  | fuel + 1, n, h => by
    have hdig : ∀ m : Nat, m < 10 → (Nat.digitChar m).isDigit = true := by decide
    unfold natCharsAux
    by_cases h10 : n < 10
    · rw [if_pos h10]
      refine ⟨by simp, ?_⟩
      intro c hc
      simp only [List.mem_singleton] at hc
      subst hc
      exact hdig n h10
    · rw [if_neg h10]
      have hrec := natCharsAux_spec fuel (n / 10) (by omega)
      refine ⟨by simp, ?_⟩
      intro c hc
      rcases List.mem_append.mp hc with hc | hc
      · exact hrec.2 c hc
      · simp only [List.mem_singleton] at hc
        subst hc
        exact hdig (n % 10) (Nat.mod_lt _ (by omega))

theorem natChars_ne_nil (n : Nat) : natChars n ≠ [] :=
  (natCharsAux_spec (n + 1) n (by omega)).1

theorem natChars_digits (n : Nat) : ∀ c ∈ natChars n, c.isDigit = true :=
  (natCharsAux_spec (n + 1) n (by omega)).2

/-- The stem of a page bitmap name (no `/` in the stem): basename is the
identity and `splitext` strips exactly the `.png`. -/
theorem stem_name_pageFile {s : String} (hs : ∀ c ∈ s.data, c ≠ '/') (i : Nat) :
    (stem_name (pageFile s i)).data = ("SRC_" ++ s).data ++ '-' :: natChars i := by
  unfold stem_name pageFile
  have hdata : ("SRC_" ++ s ++ "-" ++ String.mk (natChars i) ++ ".png").data
      = (("SRC_" ++ s).data ++ '-' :: natChars i) ++ ('.' :: 'p' :: 'n' :: 'g' :: []) := by
    simp [String.data_append]
  rw [hdata]
  have hSRC : ∀ c ∈ ("SRC_" ++ s).data, c ≠ '/' := by
    intro c hc
    rw [String.data_append] at hc
    rcases List.mem_append.mp hc with hc | hc
    · have h4 : c = 'S' ∨ c = 'R' ∨ c = 'C' ∨ c = '_' := by simpa using hc
      rcases h4 with h | h | h | h <;> subst h <;> decide
    · exact hs c hc
  rw [basenameChars_no_slash ?slashfree]
  case slashfree =>
    intro c hc
    rcases List.mem_append.mp hc with hc | hc
    · rcases List.mem_append.mp hc with hc | hc
      · exact hSRC c hc
      · rcases List.mem_cons.mp hc with hc | hc
        · subst hc
          decide
        · intro he
          rw [he] at hc
          exact absurd (natChars_digits i '/' hc) (by decide)
    · have h4 : c = '.' ∨ c = 'p' ∨ c = 'n' ∨ c = 'g' := by simpa using hc
      rcases h4 with h | h | h | h <;> subst h <;> decide
  rw [splitextChars_append_png ?anyok]
  case anyok =>
    rw [String.data_append]
    have h5 : ("SRC_" : String).data = 'S' :: 'R' :: 'C' :: '_' :: [] := rfl
    rw [h5]
    simp

/-- The key of a page bitmap: the key of `SRC_{stem}` followed by the
page index as an integer token (with the `""` guard when needed). -/
theorem keyOf_pageFile {s : String} (hs : ∀ c ∈ s.data, c ≠ '/') (i : Nat) :
    keyOf (pageFile s i)
      = (if lastIsInt (sectioned_mixed_key_chars ("SRC_" ++ s).data)
         then sectioned_mixed_key_chars ("SRC_" ++ s).data ++ [Tok.str []]
         else sectioned_mixed_key_chars ("SRC_" ++ s).data)
        ++ [Tok.int (parseNat (natChars i))] := by
  unfold keyOf sectioned_mixed_key
  rw [stem_name_pageFile hs i]
  exact smkc_append_digits _ _ (natChars_ne_nil i) (natChars_digits i)

/-- Any two page bitmaps of the same source have comparable keys: they
agree up to the final integer token. -/
theorem comparable_pageFiles {s : String} (hs : ∀ c ∈ s.data, c ≠ '/') (i j : Nat) :
    comparableKeys (keyOf (pageFile s i)) (keyOf (pageFile s j)) = true := by
  rw [keyOf_pageFile hs i, keyOf_pageFile hs j]
  unfold comparableKeys
  rw [cmpKey_append]
  cases h : cmpInt (parseNat (natChars i)) (parseNat (natChars j)) <;>
    simp [cmpKey_cons, cmpKey, cmpTok, h]

theorem allComparable_of_forall : ∀ {ks : List (List Tok)},
    (∀ a ∈ ks, ∀ b ∈ ks, comparableKeys a b = true) → allComparable ks = true
  | [], _ => rfl
  | k :: ks, h => by
    unfold allComparable
    rw [Bool.and_eq_true]
    refine ⟨List.all_eq_true.mpr ?_, allComparable_of_forall ?_⟩
    · intro k2 hk2
      exact h k (List.mem_cons_self k ks) k2 (List.mem_cons_of_mem k hk2)
    · intro a ha b hb
      exact h a (List.mem_cons_of_mem k ha) b (List.mem_cons_of_mem k hb)

/-- The page bitmaps of one source always have pairwise comparable
keys. -/
theorem allComparable_pageFiles {s : String} (hs : ∀ c ∈ s.data, c ≠ '/') (n : Nat) :
    allComparable ((pageFiles s n).map keyOf) = true := by
  apply allComparable_of_forall
  intro a ha b hb
  simp only [pageFiles, List.map_map, List.mem_map, List.mem_range] at ha hb
  obtain ⟨i, _, ha⟩ := ha
  obtain ⟨j, _, hb⟩ := hb
  rw [← ha, ← hb]
  exact comparable_pageFiles hs (i + 1) (j + 1)

/-- Every page bitmap of a source matches that source's own glob
pattern `SRC_{stem}*.png`. -/
theorem globMatch_own (s : String) (i : Nat) :
    globMatch ("SRC_" ++ s) (pageFile s i) = true := by
  unfold globMatch pageFile
  have hdata : ("SRC_" ++ s ++ "-" ++ String.mk (natChars i) ++ ".png").data
      = ("SRC_" ++ s).data ++ ('-' :: natChars i ++ '.' :: 'p' :: 'n' :: 'g' :: []) := by
    simp [String.data_append]
  have hdata2 : ("SRC_" ++ s ++ "-" ++ String.mk (natChars i) ++ ".png").data
      = (("SRC_" ++ s).data ++ '-' :: natChars i) ++ ('.' :: 'p' :: 'n' :: 'g' :: []) := by
    simp [String.data_append]
  simp only [Bool.and_eq_true]
  refine ⟨⟨?_, ?_⟩, ?_⟩
  · rw [decide_eq_true_eq, hdata]
    simp only [List.length_append, List.length_cons]
    omega
  · rw [hdata]
    exact startsWithL_append_self _ _
  · rw [hdata2, List.reverse_append]
    have h4 : (('.' :: 'p' :: 'n' :: 'g' :: []) : List Char).reverse
        = ('g' :: 'n' :: 'p' :: '.' :: []) := rfl
    rw [h4]
    exact startsWithL_append_self _ _

theorem filter_false_of_forall {p : String → Bool} :
    ∀ {l : List String}, (∀ x ∈ l, p x = false) → l.filter p = []
  | [], _ => rfl
  | a :: l, h => by
    rw [List.filter_cons, if_neg (by simp [h a (List.mem_cons_self a l)])]
    exact filter_false_of_forall (fun x hx => h x (List.mem_cons_of_mem a hx))

theorem filter_true_of_forall {p : String → Bool} :
    ∀ {l : List String}, (∀ x ∈ l, p x = true) → l.filter p = l
  | [], _ => rfl
  | a :: l, h => by
    rw [List.filter_cons, if_pos (h a (List.mem_cons_self a l))]
    rw [filter_true_of_forall (fun x hx => h x (List.mem_cons_of_mem a hx))]

/-- With pairwise-distinct stems and no cross-source glob matches, the
glob of one source finds exactly its own page bitmaps. -/
theorem filter_renderedFiles :
    ∀ {docs : List (String × Nat)},
      (docs.map Prod.fst).Nodup →
      (∀ d1 ∈ docs, ∀ d2 ∈ docs, d1.1 ≠ d2.1 →
         ∀ p ∈ pageFiles d2.1 d2.2, globMatch ("SRC_" ++ d1.1) p = false) →
      ∀ {d : String × Nat}, d ∈ docs →
        (renderedFiles docs).filter (globMatch ("SRC_" ++ d.1)) = pageFiles d.1 d.2
  | [], _, _, _, hd => absurd hd (List.not_mem_nil _)
  | d0 :: rest, hnodup, hcross, d, hd => by
    have hnodup2 := hnodup
    rw [List.map_cons, List.nodup_cons] at hnodup2
    have hchunk : renderedFiles (d0 :: rest)
        = pageFiles d0.1 d0.2 ++ renderedFiles rest := rfl
    rw [hchunk, List.filter_append]
    rcases List.mem_cons.mp hd with he | he
    · subst he
      rw [filter_true_of_forall ?own]
      case own =>
        intro x hx
        simp only [pageFiles, List.mem_map, List.mem_range] at hx
        obtain ⟨i, _, hx⟩ := hx
        rw [← hx]
        exact globMatch_own d.1 (i + 1)
      have hrest : (renderedFiles rest).filter (globMatch ("SRC_" ++ d.1)) = [] := by
        apply filter_false_of_forall
        intro x hx
        simp only [renderedFiles, List.mem_flatMap] at hx
        obtain ⟨d2, hd2, hx⟩ := hx
        refine hcross d (List.mem_cons_self d rest) d2 (List.mem_cons_of_mem d hd2) ?_ x hx
        intro heq
        exact hnodup2.1 (heq ▸ List.mem_map_of_mem Prod.fst hd2)
      rw [hrest, List.append_nil]
    · have hhead : (pageFiles d0.1 d0.2).filter (globMatch ("SRC_" ++ d.1)) = [] := by
        apply filter_false_of_forall
        intro x hx
        refine hcross d (List.mem_cons_of_mem d0 he) d0 (List.mem_cons_self d0 rest) ?_ x hx
        intro heq
        exact hnodup2.1 (heq ▸ List.mem_map_of_mem Prod.fst he)
      rw [hhead, List.nil_append]
      exact filter_renderedFiles hnodup2.2
        (fun d1 h1 d2 h2 => hcross d1 (List.mem_cons_of_mem d0 h1) d2 (List.mem_cons_of_mem d0 h2))
        he

theorem mapM_eq_some {α β : Type} {f : α → Option β} {g : α → β} :
    ∀ {l : List α}, (∀ a ∈ l, f a = some (g a)) → l.mapM f = some (l.map g)
  | [], _ => rfl
  | a :: l, h => by
    rw [List.mapM_cons, h a (List.mem_cons_self a l),
      mapM_eq_some (fun x hx => h x (List.mem_cons_of_mem a hx)), List.map_cons]
    rfl

/-- **C7 amended**: every 1:1 stage (resize, merge, label-apply,
number-apply) produces exactly one output name per input name; the
render stage produces one collected artifact per rendered page —
provided no source's glob pattern `SRC_{stem}*.png` also matches
another source's page files (stems pairwise distinct and
non-overlapping, cf. the counterexample `D1` / `D10`), and stems
contain no `/`. -/
theorem stage_list_lengths_amended :
    (∀ srcs : List String,
       (resized_names srcs).length = srcs.length
       ∧ (merged_names srcs).length = srcs.length
       ∧ (apply_labels_names "LABELED" srcs).length = srcs.length
       ∧ (apply_labels_names "NUMBERED" srcs).length = srcs.length)
    ∧ (∀ docs : List (String × Nat),
         (∀ d ∈ docs, ∀ c ∈ (d.1 : String).data, c ≠ '/') →
         (docs.map Prod.fst).Nodup →
         (∀ d1 ∈ docs, ∀ d2 ∈ docs, d1.1 ≠ d2.1 →
            ∀ p ∈ pageFiles d2.1 d2.2, globMatch ("SRC_" ++ d1.1) p = false) →
         ∃ out, render_new_srcs docs = some out ∧ out.length = totalPages docs) := by
  constructor
  · intro srcs
    refine ⟨?_, ?_, ?_, ?_⟩ <;> simp [resized_names, merged_names, apply_labels_names]
  · intro docs hslash hnodup hcross
    have hgroup : ∀ d ∈ docs,
        sorted_mixed_basename
          ((renderedFiles docs).filter (globMatch ("SRC_" ++ d.1)))
        = some (isort (fun a b => leKeyT (keyOf a) (keyOf b)) (pageFiles d.1 d.2)) := by
      intro d hd
      rw [filter_renderedFiles hnodup hcross hd]
      exact sorted_mixed_basename_eq (allComparable_pageFiles (hslash d hd) d.2)
    unfold render_new_srcs
    rw [mapM_eq_some hgroup]
    refine ⟨_, rfl, ?_⟩
    rw [List.length_flatten, List.map_map]
    unfold totalPages
    have hlen : ∀ d ∈ docs,
        (List.length ∘ fun d : String × Nat =>
          isort (fun a b => leKeyT (keyOf a) (keyOf b)) (pageFiles d.1 d.2)) d
        = (fun d : String × Nat => d.2) d := by
      intro d _
      simp only [Function.comp]
      rw [isort_length]
      simp [pageFiles]
    rw [List.map_congr_left hlen]

/-- Witness for the amended C7 at the concrete pipeline of a two-page
`D1.pdf` and a one-page `L1.pdf` (stems prefix-free), plus a concrete
1:1-stage name list. -/
theorem stage_list_lengths_amended_witness :
    (resized_names ["SRC_D1-1.png", "SRC_D1-2.png", "SRC_L1-1.png"]).length = 3
    ∧ (∀ d ∈ [("D1", 2), ("L1", 1)], ∀ c ∈ (d.1 : String).data, c ≠ '/')
    ∧ ([("D1", 2), ("L1", 1)].map Prod.fst).Nodup
    ∧ (∀ d1 ∈ [("D1", 2), ("L1", 1)], ∀ d2 ∈ [("D1", 2), ("L1", 1)], d1.1 ≠ d2.1 →
         ∀ p ∈ pageFiles d2.1 d2.2, globMatch ("SRC_" ++ d1.1) p = false)
    ∧ (∃ out, render_new_srcs [("D1", 2), ("L1", 1)] = some out
         ∧ out.length = totalPages [("D1", 2), ("L1", 1)]) :=
  ⟨by rfl, by decide, by decide, by decide,
    stage_list_lengths_amended.2 [("D1", 2), ("L1", 1)] (by decide) (by decide) (by decide)⟩

/-! ### Page numbering (C8)

```
number = number_start
for src in srcs:
    stem = os.path.splitext(src.split('_', 1)[1])[0]
    number_file = f'{tempdir}/NUMBER_{number}.png'
    number_files[src] = number_file
    args = [number] + ...
    args_set.append(args)
    number += 1
run_parallel(args_set, number_fn, prog_args.concurrency)
```

The whole `args_set` — and with it every page's number — is built by
this sequential loop before `run_parallel` is called; the assignment is
therefore a pure function of `number_start` and the input list, and
cannot depend on task completion order. -/

/-- The numbering loop: pairs each artifact name, in list order, with
the page number assigned to it. -/
def number_args (number : Int) : List String → List (String × Int)
  | [] => []
  | src :: rest => (src, number) :: number_args (number + 1) rest

theorem number_args_get : ∀ (srcs : List String) (number : Int) (i : Nat),
    (number_args number srcs)[i]?
      = (srcs[i]?).map (fun src => (src, number + i))
  | [], number, i => by simp [number_args]
  | s :: rest, number, 0 => by simp [number_args]
  | s :: rest, number, i + 1 => by
    simp only [number_args, List.getElem?_cons_succ]
    rw [number_args_get rest (number + 1) i]
    cases h : rest[i]? with
    | none => simp [h]
    | some src =>
      simp [h]
      omega

/-- **C8**: the numbering stage assigns the page at position `i`
(zero-based) of its input list the number `number_start + i`; the
assignment list is computed by the sequential loop before any task is
dispatched, so it is a function of the start value and the input list
alone, independent of completion order. -/
theorem page_number_assignment (number_start : Int) (srcs : List String) :
    (number_args number_start srcs).length = srcs.length
    ∧ ∀ i : Nat, (number_args number_start srcs)[i]?
        = (srcs[i]?).map (fun src => (src, number_start + i)) := by
  constructor
  · induction srcs generalizing number_start with
    | nil => rfl
    | cons s rest ih => simp [number_args, ih]
  · intro i
    exact number_args_get srcs number_start i

/-! ### Output path selection (C9, C10)

```
output_path = prog_args.output
if prog_args.numbered_output and os.path.exists(output_path):
    (base, ext) = os.path.splitext(output_path)
    nr = 1
    while True:
        output_path = f'{base}.{nr}{ext}'
        if not os.path.exists(output_path):
            break
        nr += 1
```

`ex` stands for `os.path.exists`.  The `while True` loop is embedded
with a fuel bound on the number of iterations; any fuel at least the
first free index reproduces the loop exactly. -/

/-- `os.path.splitext` on a full path: the extension is determined
within the basename, the root is everything before it. -/
def splitext (p : String) : String × String :=
  (String.mk (p.data.take (p.data.length - (splitextChars (basenameChars p.data)).2.length)),
   String.mk (splitextChars (basenameChars p.data)).2)

/-- `f'{base}.{nr}{ext}'`. -/
def insert_nr (p : String) (nr : Nat) : String :=
  (splitext p).1 ++ "." ++ String.mk (natChars nr) ++ (splitext p).2

/-- The `while True` search for the first free numbered path. -/
def find_numbered (ex : String → Bool) (p : String) : Nat → Nat → Option String
  | 0, _ => none
  | fuel + 1, nr =>
    if ex (insert_nr p nr) then find_numbered ex p fuel (nr + 1)
    else some (insert_nr p nr)

/-- The final `output_path` computation. -/
def output_path (ex : String → Bool) (numbered_output : Bool) (requested : String)
    (fuel : Nat) : Option String :=
  if numbered_output && ex requested then find_numbered ex requested fuel 1
  else some requested

theorem find_numbered_min (ex : String → Bool) (p : String) :
    ∀ (fuel nr n : Nat), nr ≤ n → n - nr < fuel →
      ex (insert_nr p n) = false →
      (∀ m, nr ≤ m → m < n → ex (insert_nr p m) = true) →
      find_numbered ex p fuel nr = some (insert_nr p n)
  | 0, nr, n, h2, h3, _, _ => absurd h3 (by omega)
  | fuel + 1, nr, n, h2, h3, hfree, hbusy => by
    unfold find_numbered
    by_cases he : nr = n
    · subst he
      rw [hfree]
      simp
    · rw [hbusy nr (le_refl nr) (by omega)]
      simp only [if_true]
      exact find_numbered_min ex p fuel (nr + 1) n (by omega) (by omega) hfree
        (fun m hm1 hm2 => hbusy m (by omega) hm2)

/-- **C9**: when numbered-output mode is on and the requested path
exists, the chosen path inserts `.{n}` before the extension for the
smallest `n ≥ 1` whose path does not exist (given enough loop fuel,
i.e. the loop terminates at that `n`). -/
theorem numbered_output_smallest (ex : String → Bool) (requested : String)
    (n fuel : Nat) (hex : ex requested = true)
    (hfree : ex (insert_nr requested n) = false)
    (hbusy : ∀ m, 1 ≤ m → m < n → ex (insert_nr requested m) = true)
    (hn : 1 ≤ n) (hfuel : n ≤ fuel) :
    output_path ex true requested fuel = some (insert_nr requested n) := by
  unfold output_path
  rw [hex]
  simp only [Bool.and_self, if_true]
  exact find_numbered_min ex requested fuel 1 n hn (by omega) hfree
    (fun m hm1 hm2 => hbusy m hm1 hm2)

/-- The C9 example filesystem: `out.pdf` and `out.1.pdf` exist. -/
def exDemo : String → Bool := fun s => s = "out.pdf" || s = "out.1.pdf"

/-- Witness for C9: with `out.pdf` and `out.1.pdf` existing, the chosen
output path is `out.2.pdf`. -/
theorem numbered_output_smallest_witness :
    exDemo "out.pdf" = true
    ∧ exDemo (insert_nr "out.pdf" 2) = false
    ∧ (∀ m, 1 ≤ m → m < 2 → exDemo (insert_nr "out.pdf" m) = true)
    ∧ 1 ≤ 2
    ∧ (2 : Nat) ≤ 2
    ∧ insert_nr "out.pdf" 2 = "out.2.pdf"
    ∧ output_path exDemo true "out.pdf" 2 = some "out.2.pdf" := by
  have hbusy : ∀ m, 1 ≤ m → m < 2 → exDemo (insert_nr "out.pdf" m) = true := by
    intro m h1 h2
    have hm : m = 1 := by omega
    subst hm
    rfl
  refine ⟨rfl, rfl, hbusy, by decide, by decide, rfl, ?_⟩
  have h := numbered_output_smallest exDemo "out.pdf" 2 2 rfl rfl hbusy (by decide)
    (by decide)
  rw [h]
  rfl

/-- **C10**: when numbered-output mode is off, or the requested path
does not exist yet, the output goes to exactly the requested path. -/
theorem output_path_unchanged (ex : String → Bool) (numbered_output : Bool)
    (requested : String) (fuel : Nat)
    (h : numbered_output = false ∨ ex requested = false) :
    output_path ex numbered_output requested fuel = some requested := by
  unfold output_path
  rcases h with h | h
  · rw [h]
    simp
  · rw [h]
    simp

/-- Witness for C10, in both directions: numbered output disabled with
an existing path, and numbered output enabled with a fresh path. -/
theorem output_path_unchanged_witness :
    ((false = false ∨ exDemo "out.pdf" = false)
      ∧ output_path exDemo false "out.pdf" 5 = some "out.pdf")
    ∧ ((true = false ∨ exDemo "new.pdf" = false)
      ∧ output_path exDemo true "new.pdf" 5 = some "new.pdf") :=
  ⟨⟨Or.inl rfl, output_path_unchanged exDemo false "out.pdf" 5 (Or.inl rfl)⟩,
   ⟨Or.inr rfl, output_path_unchanged exDemo true "new.pdf" 5 (Or.inr rfl)⟩⟩
